import Mathlib

/-!
Verification of the lite-Biws crawl pipeline (src/main.py).

The Python program is shallowly embedded below.  External collaborators
(the HTTP transport, the HTML parser, the wall clock, the random
user-agent choice and the iteration order of Python hash sets) are
modelled as explicit parameters, exactly where the source consumes them:

* `make_request` takes an oracle `net : Nat → Option String` giving the
  outcome of the attempt made with a given retry counter;
* the orchestrator takes `net : String → Option String`, the terminal
  result of `make_request` per URL, and the two extractors as functions
  on response bodies;
* the two BeautifulSoup-based extractors take, for each of their fixed
  CSS selectors, the list of attribute values the markup capability
  returns in document order (the spec's "markup query capability");
* `export_results` takes the wall-clock date string and the iteration
  order of the `scraped_urls` hash set as parameters.
-/

namespace LiteBiws

/-! ## QueryCombinator: `generate_keyword_combinations` (src/main.py:61-76) -/

/-- Python's `itertools.combinations`: all sublists of length `r`, in the
lexicographic (input index increasing) order Python produces. -/
def combinations {α : Type} : Nat → List α → List (List α)
  | 0, _ => [[]]
  | _ + 1, [] => []
  | r + 1, x :: xs => (combinations r xs).map (x :: ·) ++ combinations (r + 1) xs

/-- Python `sep.join(parts)`. -/
def pyJoin (sep : String) : List String → String
  | [] => ""
  | [a] => a
  | a :: b :: t => a ++ sep ++ pyJoin sep (b :: t)

/-- The method `generate_keyword_combinations`: for `r` in `range(1, len(keywords))`,
all `itertools.combinations(keywords, r)`, each joined with the query
character (src/main.py:61-76). -/
def generate_keyword_combinations (query_char : String) (keywords : List String) : List String :=
  (List.range' 1 (keywords.length - 1)).flatMap
    (fun r => (combinations r keywords).map (pyJoin query_char))

/-! ## Fetcher: `make_request` (src/main.py:82-106)

`net retries` is the outcome of the HTTP attempt made when the retry
counter equals `retries`: `some body` for a 2xx response, `none` for a
transport error or a non-2xx status (which `raise_for_status` turns into
an exception).  The outcome records the returned value, how many GET
attempts were issued, the total backoff time slept (`2 ** retries`
before each retry), and how many times `make_request` was invoked. -/

structure FetchOutcome where
  result : Option String
  attempts : Nat
  backoffSlept : Nat
  calls : Nat
  deriving Repr, DecidableEq

/-- The recursion of `make_request`, driven by the fuel
`max_retries - retries`, which is `0` exactly when the source's guard
`retries >= self.config.max_retries` fires. -/
def makeRequestAux (net : Nat → Option String) : Nat → Nat → FetchOutcome
  | 0, _ => ⟨none, 0, 0, 1⟩
  | fuel + 1, retries =>
    match net retries with
    | some body => ⟨some body, 1, 0, 1⟩
    | none =>
        let rest := makeRequestAux net fuel (retries + 1)
        ⟨rest.result, rest.attempts + 1, rest.backoffSlept + 2 ^ retries, rest.calls + 1⟩

def make_request (net : Nat → Option String) (max_retries : Nat) (retries : Nat) :
    FetchOutcome :=
  makeRequestAux net (max_retries - retries) retries

/-! ## Python string primitives, on explicit character lists -/

/-- The characters Python's `str.strip()` removes. -/
def pyIsSpace (c : Char) : Bool :=
  c == ' ' || c == '\t' || c == '\n' || c == '\r' || c == '\x0b' || c == '\x0c'

/-- Python's `str.strip()`: drop leading and trailing whitespace. -/
def trimL (l : List Char) : List Char :=
  ((l.dropWhile pyIsSpace).reverse.dropWhile pyIsSpace).reverse

def pyStrip (s : String) : String := String.mk (trimL s.data)

/-- Python's `str.split(d)` for a one-character separator `d`. -/
def splitOnChar (d : Char) : List Char → List (List Char)
  | [] => [[]]
  | c :: rest =>
    if c == d then [] :: splitOnChar d rest
    else
      match splitOnChar d rest with
      | [] => [[c]]
      | h :: t => (c :: h) :: t

/-- Test that `l` starts with `pat`. -/
def isPre : List Char → List Char → Bool
  | [], _ => true
  | _ :: _, [] => false
  | a :: as, b :: bs => a == b && isPre as bs

/-- Split `l` at the first occurrence of `pat`: `some (before, after)`
when `pat` occurs as a contiguous run, `none` otherwise. -/
def splitAtSub (pat : List Char) : List Char → Option (List Char × List Char)
  | [] => if isPre pat [] then some ([], []) else none
  | c :: rest =>
    if isPre pat (c :: rest) then some ([], (c :: rest).drop pat.length)
    else
      match splitAtSub pat rest with
      | some (a, b) => some (c :: a, b)
      | none => none

/-- Python's substring test `pat in l`. -/
def containsSub (pat l : List Char) : Bool := (splitAtSub pat l).isSome

/-! ## `urllib.parse.urlparse`, restricted to the `scheme`/`netloc` fields
`is_valid_url` reads (src/main.py:147-158).  `urlsplit` takes the text
before the first `:` as the scheme when it is a letter followed by
letters, digits, `+`, `-` or `.`, lowercasing it; the netloc is the text
after a leading `//`, up to the next `/`, `?` or `#`. -/

def isSchemeChar (c : Char) : Bool :=
  c.isAlphanum || c == '+' || c == '-' || c == '.'

def pySplitScheme (l : List Char) : List Char × List Char :=
  let before := l.takeWhile (fun c => c != ':')
  if before.length < l.length then
    match before with
    | [] => ([], l)
    | c :: cs =>
      if c.isAlpha && cs.all isSchemeChar then
        ((c :: cs).map Char.toLower, l.drop (before.length + 1))
      else ([], l)
  else ([], l)

def pyNetloc : List Char → List Char
  | '/' :: '/' :: rest => rest.takeWhile (fun c => c != '/' && c != '?' && c != '#')
  | _ => []

/-- The method `is_valid_url` (src/main.py:147-158): scheme is `http` or `https`,
non-empty netloc, and the lowercased netloc contains neither
`google.com` nor `googleusercontent.com`. -/
def is_valid_url (url : String) : Bool :=
  let parsed := pySplitScheme url.data
  let netloc := pyNetloc parsed.2
  let nl := netloc.map Char.toLower
  (parsed.1 == "http".data || parsed.1 == "https".data) &&
  !netloc.isEmpty &&
  !containsSub "google.com".data nl &&
  !containsSub "googleusercontent.com".data nl

/-! ## ResultPageExtractor: `extract_google_urls` (src/main.py:108-145)

The markup capability is modelled by `passes`: for each of the four
fixed CSS selectors, the `href` attribute values of the matched anchors
in document order (a missing attribute is the empty string, as in
`link.get('href', '')`). -/

/-- The loop body of src/main.py:126-135 on one `href` value: unwrap
`/url?q=` redirects (truncating at the first `&sa=`), or keep direct
`http...` links whose text does not contain `google.com`. -/
def candidateOfHref (href : String) : List String :=
  if isPre "/url?q=".data href.data then
    let actual := href.data.drop 7
    match splitAtSub "&sa=".data actual with
    | some p => [String.mk p.1]
    | none => [String.mk actual]
  else if isPre "http".data href.data && !containsSub "google.com".data href.data then
    [href]
  else []

/-- The dedup-and-validate loop of src/main.py:138-143: keep a URL when
it is not in `seen` and `is_valid_url` accepts it. -/
def uniqueValid : List String → List String → List String
  | _, [] => []
  | seen, u :: rest =>
    if u ∈ seen then uniqueValid seen rest
    else if is_valid_url u then u :: uniqueValid (u :: seen) rest
    else uniqueValid seen rest

def extract_google_urls (passes : List (List String)) : List String :=
  uniqueValid [] (passes.flatMap (fun links => links.flatMap candidateOfHref))

/-! ## TargetPageExtractor: `extract_meta_keywords` (src/main.py:160-188)

`passes` gives, for each of the four fixed meta selectors, the `content`
attribute values of the matched tags in document order. -/

/-- The delimiter loop of src/main.py:181-186: split on the first of
`,`, `;`, `|` that occurs in the content, trimming each piece; with no
delimiter the whole content is one token. -/
def splitMetaContent (content : String) : List String :=
  if content.data.any (· == ',') then
    (splitOnChar ',' content.data).map (fun p => String.mk (trimL p))
  else if content.data.any (· == ';') then
    (splitOnChar ';' content.data).map (fun p => String.mk (trimL p))
  else if content.data.any (· == '|') then
    (splitOnChar '|' content.data).map (fun p => String.mk (trimL p))
  else [content]

def extract_meta_keywords (passes : List (List String)) : List String :=
  (passes.flatMap fun tags =>
    tags.flatMap fun raw =>
      let content := pyStrip raw
      if content.data.isEmpty then [] else splitMetaContent content).filter
    (fun kw => !kw.data.isEmpty && !(trimL kw.data).isEmpty)

/-! ## CrawlOrchestrator state (src/main.py:54-59)

`scraped_urls` is a Python `set`; the model keeps its insertion sequence
(the orchestrator only ever inserts an element after a failed membership
test, so the sequence is duplicate-free and the set's contents are its
elements).  `net url` is the terminal result of `make_request(url)`:
`some body` on success, `none` once retries are exhausted. -/

structure ScraperState where
  scraped_urls : List String
  all_urls : List (List String)
  used_keywords : List String
  deriving Repr, DecidableEq

def initialState : ScraperState := ⟨[], [], []⟩

/-- The method `extract_keywords_from_urls` (src/main.py:216-237), also returning
the list of URLs it actually fetched, in fetch order. -/
def extract_keywords_from_urls (net : String → Option String)
    (extractKw : String → List String) :
    List String → ScraperState → ScraperState × List String
  | [], st => (st, [])
  | url :: rest, st =>
    if url ∈ st.scraped_urls then extract_keywords_from_urls net extractKw rest st
    else
      let st1 : ScraperState := { st with scraped_urls := st.scraped_urls ++ [url] }
      let st2 : ScraperState :=
        match net url with
        | none => st1
        | some body => { st1 with used_keywords := st1.used_keywords ++ extractKw body }
      let res := extract_keywords_from_urls net extractKw rest st2
      (res.1, url :: res.2)

/-- The per-combination loop of `scrape_search_results`
(src/main.py:198-214): on search-fetch failure `continue`; on success
append the extracted URL list to `all_urls` and process the URLs. -/
def scrapeLoop (net : String → Option String)
    (extractUrls extractKw : String → List String) (base_url : String) :
    List String → ScraperState → ScraperState × List String
  | [], st => (st, [])
  | keywords :: rest, st =>
    match net (base_url ++ keywords) with
    | none => scrapeLoop net extractUrls extractKw base_url rest st
    | some body =>
      let urls := extractUrls body
      let st1 : ScraperState := { st with all_urls := st.all_urls ++ [urls] }
      let p := extract_keywords_from_urls net extractKw urls st1
      let q := scrapeLoop net extractUrls extractKw base_url rest p.1
      (q.1, p.2 ++ q.2)

/-- The method `scrape_search_results` (src/main.py:190-214) from a fresh
`LiteBiws` instance, returning the final state and the target-fetch
log. -/
def scrape_search_results (net : String → Option String)
    (extractUrls extractKw : String → List String)
    (base_url query_char : String) (base_keywords : List String) :
    ScraperState × List String :=
  scrapeLoop net extractUrls extractKw base_url
    (generate_keyword_combinations query_char base_keywords) initialState

/-! ## ResultAggregator: `get_statistics` and `export_results`
(src/main.py:239-275) -/

structure Statistics where
  total_search_queries : Nat
  total_urls_found : Nat
  unique_urls_scraped : Nat
  total_keywords_extracted : Nat
  unique_keywords : Nat
  deriving Repr, DecidableEq

/-- The method `get_statistics` (src/main.py:239-247).  `len` of a Python set is
its number of distinct elements, i.e. the length of the deduplicated
insertion sequence. -/
def get_statistics (st : ScraperState) : Statistics :=
  { total_search_queries := st.all_urls.length
    total_urls_found := (st.all_urls.map List.length).sum
    unique_urls_scraped := st.scraped_urls.dedup.length
    total_keywords_extracted := st.used_keywords.length
    unique_keywords := st.used_keywords.dedup.length }

/-- Python `str.lower()` (ASCII). -/
def pyLower (s : String) : String := String.mk (s.data.map Char.toLower)

/-- The export-time keyword dedup loop (src/main.py:254-259): keep a
keyword when its lowercasing is not in `seen`, remembering lowered
forms. -/
def dedupKeywords : List String → List String → List String
  | _, [] => []
  | seen, k :: rest =>
    if pyLower k ∈ seen then dedupKeywords seen rest
    else k :: dedupKeywords (pyLower k :: seen) rest

/-- The `results` dictionary of `export_results` (src/main.py:261-275).
`date` is the wall clock (`time.strftime`); `setEnum` is the iteration
order the `scraped_urls` hash set presents to `list(...)`, a
permutation of the set's elements chosen by the runtime, not by the
program's inputs. -/
structure ExportSnapshot where
  scraping_date : String
  base_keywords : List String
  statistics : Statistics
  urls_by_query : List (List String)
  all_unique_urls : List String
  keywords : List String
  keyword_count : Nat
  deriving Repr, DecidableEq

def export_results (date : String) (base_keywords : List String)
    (setEnum : List String) (st : ScraperState) : ExportSnapshot :=
  let unique_keywords := dedupKeywords [] st.used_keywords
  { scraping_date := date
    base_keywords := base_keywords
    statistics := get_statistics st
    urls_by_query := st.all_urls
    all_unique_urls := setEnum
    keywords := unique_keywords
    keyword_count := unique_keywords.length }

/-- Predicate: `setEnum` is a possible iteration order of the `scraped_urls` set:
a permutation of the set's distinct elements. -/
def ValidSetEnum (setEnum : List String) (st : ScraperState) : Prop :=
  setEnum.Perm st.scraped_urls.dedup

instance (setEnum : List String) (st : ScraperState) : Decidable (ValidSetEnum setEnum st) :=
  inferInstanceAs (Decidable (setEnum.Perm st.scraped_urls.dedup))

/-! ## The JSON wire shape of the export (src/main.py:261-275) -/

inductive Json where
  | str : String → Json
  | num : Nat → Json
  | arr : List Json → Json
  | obj : List (String × Json) → Json

def statsJson (s : Statistics) : Json :=
  Json.obj [
    ("total_search_queries", Json.num s.total_search_queries),
    ("total_urls_found", Json.num s.total_urls_found),
    ("unique_urls_scraped", Json.num s.unique_urls_scraped),
    ("total_keywords_extracted", Json.num s.total_keywords_extracted),
    ("unique_keywords", Json.num s.unique_keywords)]

/-- The nesting and key names of the `results` dictionary, exactly as
the dict literal at src/main.py:261-275 spells them. -/
def exportJson (e : ExportSnapshot) : Json :=
  Json.obj [
    ("metadata", Json.obj [
      ("scraping_date", Json.str e.scraping_date),
      ("base_keywords", Json.arr (e.base_keywords.map Json.str)),
      ("statistics", statsJson e.statistics)]),
    ("search_results", Json.obj [
      ("urls_by_query", Json.arr (e.urls_by_query.map (fun l => Json.arr (l.map Json.str)))),
      ("all_unique_urls", Json.arr (e.all_unique_urls.map Json.str))]),
    ("extracted_data", Json.obj [
      ("keywords", Json.arr (e.keywords.map Json.str)),
      ("keyword_count", Json.num e.keyword_count)])]

def jsonKeys : Json → List String
  | Json.obj fields => fields.map Prod.fst
  | _ => []

def jsonGet (j : Json) (k : String) : Option Json :=
  match j with
  | Json.obj fields => (fields.find? (fun p => p.1 == k)).map Prod.snd
  | _ => none

/-! ## Lemmas about the Fetcher -/

theorem makeRequestAux_calls_le (net : Nat → Option String) :
    ∀ (fuel r : Nat), (makeRequestAux net fuel r).calls ≤ fuel + 1 := by
  intro fuel
  induction fuel with
  | zero => intro r; simp [makeRequestAux]
  | succ fuel ih =>
    intro r
    cases hnet : net r with
    | some body => simp [makeRequestAux, hnet]
    | none =>
      have h := ih (r + 1)
      simp only [makeRequestAux, hnet]
      omega

theorem makeRequestAux_allFail (net : Nat → Option String) (h : ∀ k, net k = none) :
    ∀ (fuel r : Nat),
      makeRequestAux net fuel r = ⟨none, fuel, 2 ^ r * (2 ^ fuel - 1), fuel + 1⟩ := by
  intro fuel
  induction fuel with
  | zero => intro r; simp [makeRequestAux]
  | succ fuel ih =>
    intro r
    have harith : 2 ^ (r + 1) * (2 ^ fuel - 1) + 2 ^ r = 2 ^ r * (2 ^ (fuel + 1) - 1) := by
      obtain ⟨c, hc⟩ : ∃ c, 2 ^ fuel = c + 1 :=
        ⟨2 ^ fuel - 1, by have := Nat.one_le_two_pow (n := fuel); omega⟩
      have h1 : 2 ^ (r + 1) = 2 ^ r * 2 := by rw [pow_succ]
      have h2 : 2 ^ (fuel + 1) = 2 ^ fuel * 2 := by rw [pow_succ]
      have h3 : (c + 1) * 2 - 1 = 2 * c + 1 := by omega
      rw [h1, h2, hc, Nat.add_sub_cancel, h3]
      ring
    simp only [makeRequestAux, h r, ih (r + 1)]
    rw [FetchOutcome.mk.injEq]
    exact ⟨rfl, rfl, harith, rfl⟩

theorem sum_two_pow (m : Nat) : ∑ k ∈ Finset.range m, 2 ^ k = 2 ^ m - 1 := by
  induction m with
  | zero => simp
  | succ m ih =>
    rw [Finset.sum_range_succ, ih]
    have h1 : 1 ≤ 2 ^ m := Nat.one_le_two_pow
    have h2 : 2 ^ (m + 1) = 2 ^ m * 2 := by rw [pow_succ]
    omega

/-- C10: `make_request` terminates on every input: at most
`max_retries + 1` invocations occur, and a call whose retry counter has
reached `max_retries` returns `None` unconditionally. -/
theorem make_request_call_bound (net : Nat → Option String) (max_retries : Nat) :
    (make_request net max_retries 0).calls ≤ max_retries + 1 ∧
    (make_request net max_retries max_retries).result = none := by
  constructor
  · have h := makeRequestAux_calls_le net (max_retries - 0) 0
    simpa [make_request] using h
  · simp [make_request, Nat.sub_self, makeRequestAux]

/-- C7: when every attempt fails, `make_request` makes exactly
`max_retries` GET attempts, returns a terminal failure, and the total
backoff slept is the sum of `2 ^ k` for `k < max_retries`. -/
theorem make_request_exhausts_retries (net : Nat → Option String) (max_retries : Nat)
    (h : ∀ k, net k = none) :
    (make_request net max_retries 0).result = none ∧
    (make_request net max_retries 0).attempts = max_retries ∧
    (make_request net max_retries 0).backoffSlept = ∑ k ∈ Finset.range max_retries, 2 ^ k := by
  rw [make_request, makeRequestAux_allFail net h, sum_two_pow]
  simp

/-- Witness for C7 at `max_retries = 3` with an always-failing network:
3 attempts and `1 + 2 + 4 = 7` time units of backoff. -/
theorem make_request_exhausts_retries_witness :
    (make_request (fun _ => none) 3 0).result = none ∧
    (make_request (fun _ => none) 3 0).attempts = 3 ∧
    (make_request (fun _ => none) 3 0).backoffSlept = ∑ k ∈ Finset.range 3, 2 ^ k :=
  make_request_exhausts_retries (fun _ => none) 3 (fun _ => rfl)

/-! ## C2: `extract_meta_keywords` on `content="a, b; c"` -/

/-- C2 counterexample: on the markup
`<meta name="keywords" content="a, b; c">` (its `content` is matched by
the first selector only), the extractor does not return
`["a", "b", "c"]`. -/
theorem extract_meta_keywords_counterexample :
    extract_meta_keywords [["a, b; c"], [], [], []] ≠ ["a", "b", "c"] := by decide

/-- C2 amended: the content is split only on the first delimiter type
found (the comma), each piece trimmed, so the result is
`["a", "b; c"]` — the semicolon inside the second piece is not split. -/
theorem extract_meta_keywords_comma_first :
    extract_meta_keywords [["a, b; c"], [], [], []] = ["a", "b; c"] := by decide

/-! ## C5: the export's wire shape -/

/-- C5 counterexample: the `metadata` object's keys are not
`{date, base_keywords, statistics}` — there is no `date` field. -/
theorem export_metadata_key_counterexample :
    (jsonGet (exportJson (export_results "2025-01-01 00:00:00" ["a"] [] initialState))
        "metadata").map jsonKeys ≠
      some ["date", "base_keywords", "statistics"] := by decide

/-- C5 amended: the export has exactly the top-level structure
`metadata{scraping_date, base_keywords, statistics}`,
`search_results{urls_by_query, all_unique_urls}`,
`extracted_data{keywords, keyword_count}` — the date field is named
`scraping_date`, not `date`. -/
theorem exportJson_structure (date : String) (bk enum : List String) (st : ScraperState) :
    jsonKeys (exportJson (export_results date bk enum st)) =
      ["metadata", "search_results", "extracted_data"] ∧
    (jsonGet (exportJson (export_results date bk enum st)) "metadata").map jsonKeys =
      some ["scraping_date", "base_keywords", "statistics"] ∧
    (jsonGet (exportJson (export_results date bk enum st)) "search_results").map jsonKeys =
      some ["urls_by_query", "all_unique_urls"] ∧
    (jsonGet (exportJson (export_results date bk enum st)) "extracted_data").map jsonKeys =
      some ["keywords", "keyword_count"] :=
  ⟨rfl, rfl, rfl, rfl⟩

/-! ## Lemmas about the export keyword dedup -/

theorem mem_of_mem_dedupKeywords :
    ∀ (seen l : List String) (x : String), x ∈ dedupKeywords seen l → x ∈ l := by
  intro seen l
  induction l generalizing seen with
  | nil => intro x h; simp [dedupKeywords] at h
  | cons k rest ih =>
    intro x h
    by_cases hs : pyLower k ∈ seen
    · simp only [dedupKeywords, if_pos hs] at h
      exact List.mem_cons_of_mem _ (ih seen x h)
    · simp only [dedupKeywords, if_neg hs] at h
      rcases List.mem_cons.mp h with rfl | h
      · exact List.mem_cons_self _ _
      · exact List.mem_cons_of_mem _ (ih _ x h)

theorem dedupKeywords_lower_not_seen :
    ∀ (seen l : List String) (x : String), x ∈ dedupKeywords seen l → pyLower x ∉ seen := by
  intro seen l
  induction l generalizing seen with
  | nil => intro x h; simp [dedupKeywords] at h
  | cons k rest ih =>
    intro x h
    by_cases hs : pyLower k ∈ seen
    · simp only [dedupKeywords, if_pos hs] at h
      exact ih seen x h
    · simp only [dedupKeywords, if_neg hs] at h
      rcases List.mem_cons.mp h with rfl | h
      · exact hs
      · have := ih _ x h
        intro hx
        exact this (List.mem_cons_of_mem _ hx)

theorem dedupKeywords_map_lower_nodup :
    ∀ (seen l : List String), ((dedupKeywords seen l).map pyLower).Nodup := by
  intro seen l
  induction l generalizing seen with
  | nil => simp [dedupKeywords]
  | cons k rest ih =>
    by_cases hs : pyLower k ∈ seen
    · simpa only [dedupKeywords, if_pos hs] using ih seen
    · simp only [dedupKeywords, if_neg hs, List.map_cons, List.nodup_cons]
      refine ⟨?_, ih _⟩
      intro hmem
      obtain ⟨x, hx, hlow⟩ := List.mem_map.mp hmem
      have := dedupKeywords_lower_not_seen _ _ x hx
      exact this (by rw [hlow]; exact List.mem_cons_self _ _)

theorem dedupKeywords_nodup (seen l : List String) : (dedupKeywords seen l).Nodup :=
  List.Nodup.of_map pyLower (dedupKeywords_map_lower_nodup seen l)

theorem dedupKeywords_length_le (pool : List String) :
    (dedupKeywords [] pool).length ≤ pool.dedup.length := by
  have hnd : (dedupKeywords [] pool).Nodup := dedupKeywords_nodup [] pool
  calc (dedupKeywords [] pool).length
      = (dedupKeywords [] pool).toFinset.card := (List.toFinset_card_of_nodup hnd).symm
    _ ≤ pool.toFinset.card := by
        refine Finset.card_le_card ?_
        intro x hx
        rw [List.mem_toFinset] at hx ⊢
        exact mem_of_mem_dedupKeywords [] pool x hx
    _ = pool.dedup.length := List.card_toFinset pool

/-! ## C3: the `unique_keywords` statistic -/

/-- C3 counterexample: with keyword pool `["Go", "go"]` the statistic
`unique_keywords` is `2` (case-sensitive `len(set(...))`), while the
case-insensitively deduplicated keyword list in the export has length
`1` — the two are not equal. -/
theorem unique_keywords_counterexample :
    (get_statistics ⟨[], [], ["Go", "go"]⟩).unique_keywords ≠
      (export_results "d" [] [] ⟨[], [], ["Go", "go"]⟩).keywords.length := by decide

/-- C3 amended: the `unique_keywords` statistic counts the distinct
keyword tokens under case-SENSITIVE comparison; it is always at least
the length of the case-insensitively deduplicated keyword list that
appears in the export (strictly more when the pool holds case-variant
duplicates). -/
theorem unique_keywords_statistic (st : ScraperState) (date : String)
    (bk enum : List String) :
    (get_statistics st).unique_keywords = st.used_keywords.dedup.length ∧
    (export_results date bk enum st).keywords.length ≤ (get_statistics st).unique_keywords :=
  ⟨rfl, dedupKeywords_length_le st.used_keywords⟩

/-! ## C4: stability of the `all_unique_urls` order -/

/-- C4 counterexample: one crawl (two keywords, every fetch succeeds,
both search pages list the same two result URLs) visits the set
`{"u1", "u2"}`.  Both `["u1", "u2"]` and `["u2", "u1"]` are possible
iteration orders of that hash set, and they produce different
`all_unique_urls` sequences — two runs over identical inputs need not
agree. -/
theorem export_order_counterexample :
    ValidSetEnum ["u1", "u2"]
      (scrape_search_results (fun _ => some "") (fun _ => ["u1", "u2"]) (fun _ => [])
        "s:" "+" ["a", "b"]).1 ∧
    ValidSetEnum ["u2", "u1"]
      (scrape_search_results (fun _ => some "") (fun _ => ["u1", "u2"]) (fun _ => [])
        "s:" "+" ["a", "b"]).1 ∧
    (export_results "d" ["a", "b"] ["u1", "u2"]
        (scrape_search_results (fun _ => some "") (fun _ => ["u1", "u2"]) (fun _ => [])
          "s:" "+" ["a", "b"]).1).all_unique_urls ≠
      (export_results "d" ["a", "b"] ["u2", "u1"]
        (scrape_search_results (fun _ => some "") (fun _ => ["u1", "u2"]) (fun _ => [])
          "s:" "+" ["a", "b"]).1).all_unique_urls := by decide

/-- C4 amended: the export's `all_unique_urls` comes from iterating the
`scraped_urls` hash set, whose order is chosen by the runtime; what is
run-independent is the set of URLs: any two valid iteration orders
yield `all_unique_urls` sequences that are permutations of each
other. -/
theorem export_all_unique_urls_perm (date : String) (bk : List String)
    (st : ScraperState) (e1 e2 : List String)
    (h1 : ValidSetEnum e1 st) (h2 : ValidSetEnum e2 st) :
    (export_results date bk e1 st).all_unique_urls.Perm
      (export_results date bk e2 st).all_unique_urls :=
  h1.trans h2.symm

/-- Witness for C4's amended theorem at a concrete state and two
concrete enumerations. -/
theorem export_all_unique_urls_perm_witness :
    (export_results "d" [] ["a", "b"] ⟨["a", "b"], [], []⟩).all_unique_urls.Perm
      (export_results "d" [] ["b", "a"] ⟨["a", "b"], [], []⟩).all_unique_urls :=
  export_all_unique_urls_perm "d" [] ⟨["a", "b"], [], []⟩ ["a", "b"] ["b", "a"]
    (by decide) (by decide)

/-! ## Lemmas about the orchestrator loops -/

theorem extract_keywords_from_urls_state (net : String → Option String)
    (eK : String → List String) :
    ∀ (urls : List String) (st : ScraperState),
      ((extract_keywords_from_urls net eK urls st).1).all_urls = st.all_urls ∧
      ((extract_keywords_from_urls net eK urls st).1).scraped_urls =
        st.scraped_urls ++ (extract_keywords_from_urls net eK urls st).2 := by
  intro urls
  induction urls with
  | nil => intro st; simp [extract_keywords_from_urls]
  | cons url rest ih =>
    intro st
    by_cases hmem : url ∈ st.scraped_urls
    · simpa only [extract_keywords_from_urls, if_pos hmem, List.append_nil] using ih st
    · cases hnet : net url with
      | none =>
        have h := ih { st with scraped_urls := st.scraped_urls ++ [url] }
        simp only [extract_keywords_from_urls, if_neg hmem, hnet] at h ⊢
        exact ⟨h.1, by rw [h.2]; simp⟩
      | some body =>
        have h := ih { st with scraped_urls := st.scraped_urls ++ [url],
                               used_keywords := st.used_keywords ++ eK body }
        simp only [extract_keywords_from_urls, if_neg hmem, hnet] at h ⊢
        exact ⟨h.1, by rw [h.2]; simp⟩

theorem extract_keywords_from_urls_nodup (net : String → Option String)
    (eK : String → List String) :
    ∀ (urls : List String) (st : ScraperState), st.scraped_urls.Nodup →
      ((extract_keywords_from_urls net eK urls st).1).scraped_urls.Nodup := by
  intro urls
  induction urls with
  | nil => intro st h; simpa [extract_keywords_from_urls] using h
  | cons url rest ih =>
    intro st hnd
    by_cases hmem : url ∈ st.scraped_urls
    · simpa only [extract_keywords_from_urls, if_pos hmem] using ih st hnd
    · have hnd1 : (st.scraped_urls ++ [url]).Nodup := by
        simp [List.nodup_append, hnd, hmem]
      cases hnet : net url with
      | none =>
        simp only [extract_keywords_from_urls, if_neg hmem, hnet]
        exact ih _ hnd1
      | some body =>
        simp only [extract_keywords_from_urls, if_neg hmem, hnet]
        exact ih _ hnd1

theorem scrapeLoop_state (net : String → Option String)
    (eU eK : String → List String) (base : String) :
    ∀ (combos : List String) (st : ScraperState),
      ((scrapeLoop net eU eK base combos st).1).scraped_urls =
        st.scraped_urls ++ (scrapeLoop net eU eK base combos st).2 ∧
      (st.scraped_urls.Nodup →
        ((scrapeLoop net eU eK base combos st).1).scraped_urls.Nodup) ∧
      ((scrapeLoop net eU eK base combos st).1).all_urls.length =
        st.all_urls.length +
          (combos.filter (fun c => (net (base ++ c)).isSome)).length := by
  intro combos
  induction combos with
  | nil => intro st; simp [scrapeLoop]
  | cons k rest ih =>
    intro st
    cases hnet : net (base ++ k) with
    | none =>
      have h := ih st
      simp only [scrapeLoop, hnet, List.filter_cons, hnet] at h ⊢
      simpa using h
    | some body =>
      set st1 : ScraperState := { st with all_urls := st.all_urls ++ [eU body] } with hst1
      have hek := extract_keywords_from_urls_state net eK (eU body) st1
      have heknd := extract_keywords_from_urls_nodup net eK (eU body) st1
      have hrest := ih (extract_keywords_from_urls net eK (eU body) st1).1
      have hfil : List.filter (fun c => (net (base ++ c)).isSome) (k :: rest) =
          k :: List.filter (fun c => (net (base ++ c)).isSome) rest := by
        simp [List.filter_cons, hnet]
      simp only [scrapeLoop, hnet, hfil]
      refine ⟨?_, ?_, ?_⟩
      · rw [hrest.1, hek.2]
        simp [hst1, List.append_assoc]
      · intro hnd
        refine hrest.2.1 (heknd ?_)
        simpa [hst1] using hnd
      · rw [hrest.2.2, hek.1]
        simp [hst1]
        omega

/-! ## C9: no target URL is fetched twice -/

/-- C9: within one run, for any network behavior and any extractor
results, the sequence of target URLs the orchestrator fetches for
keyword extraction contains no duplicates, and the final
`scraped_urls` set is exactly the fetched URLs: a URL is inserted when
first fetched and membership suppresses every later fetch, even across
queries. -/
theorem no_target_url_fetched_twice (net : String → Option String)
    (eU eK : String → List String) (base qc : String) (bk : List String) :
    ((scrape_search_results net eU eK base qc bk).2).Nodup ∧
    ((scrape_search_results net eU eK base qc bk).1).scraped_urls =
      (scrape_search_results net eU eK base qc bk).2 := by
  have h := scrapeLoop_state net eU eK base
    (generate_keyword_combinations qc bk) initialState
  have hscr : ((scrape_search_results net eU eK base qc bk).1).scraped_urls =
      (scrape_search_results net eU eK base qc bk).2 := by
    have := h.1
    simpa [scrape_search_results, initialState] using this
  refine ⟨?_, hscr⟩
  rw [← hscr]
  exact h.2.1 (by simp [initialState])

/-! ## C1: failed search fetches and `total_search_queries` -/

/-- C1 counterexample: two combinations are processed (`"a"` and
`"b"`), the search fetch for `"a"` terminally fails and the one for
`"b"` succeeds with zero result URLs.  The failed query leaves no entry
in the CrawlResult history — `all_urls` is `[[]]`, not `[[], []]` — so
`total_search_queries` is `1`, not the number of processed
combinations. -/
theorem total_search_queries_counterexample :
    (generate_keyword_combinations "+" ["a", "b"]).length = 2 ∧
    ((scrape_search_results (fun u => if u = "s:b" then some "" else none)
        (fun _ => []) (fun _ => []) "s:" "+" ["a", "b"]).1).all_urls = [[]] ∧
    (get_statistics (scrape_search_results (fun u => if u = "s:b" then some "" else none)
        (fun _ => []) (fun _ => []) "s:" "+" ["a", "b"]).1).total_search_queries ≠ 2 := by
  decide

/-- C1 amended: when a combination's search fetch terminally fails the
orchestrator records nothing for that query and continues, so
`total_search_queries` counts exactly the combinations whose search
fetch succeeded (a successful fetch is counted even when it yields zero
URLs). -/
theorem total_search_queries_counts_successes (net : String → Option String)
    (eU eK : String → List String) (base qc : String) (bk : List String) :
    (get_statistics (scrape_search_results net eU eK base qc bk).1).total_search_queries =
      ((generate_keyword_combinations qc bk).filter
        (fun c => (net (base ++ c)).isSome)).length := by
  have h := scrapeLoop_state net eU eK base
    (generate_keyword_combinations qc bk) initialState
  have := h.2.2
  simpa [scrape_search_results, get_statistics, initialState] using this

/-! ## C8: every URL returned by `extract_google_urls` validates -/

theorem mem_uniqueValid_valid :
    ∀ (l seen : List String) (u : String), u ∈ uniqueValid seen l → is_valid_url u = true := by
  intro l
  induction l with
  | nil => intro seen u h; simp [uniqueValid] at h
  | cons a rest ih =>
    intro seen u h
    by_cases h1 : a ∈ seen
    · simp only [uniqueValid, if_pos h1] at h
      exact ih seen u h
    · by_cases h2 : is_valid_url a = true
      · simp only [uniqueValid, if_neg h1, if_pos h2] at h
        rcases List.mem_cons.mp h with rfl | h
        · exact h2
        · exact ih _ u h
      · simp only [uniqueValid, if_neg h1, if_neg h2] at h
        exact ih seen u h

/-- C8: for every input markup (any selector results) and every URL `u`
the extractor returns, `u` parses with scheme `http` or `https`, has a
non-empty host, and the lowercased host contains neither the search
engine's own domain `google.com` nor its static-content domain
`googleusercontent.com`. -/
theorem extract_google_urls_only_valid (passes : List (List String)) (u : String)
    (hu : u ∈ extract_google_urls passes) :
    ((pySplitScheme u.data).1 = "http".data ∨ (pySplitScheme u.data).1 = "https".data) ∧
    pyNetloc (pySplitScheme u.data).2 ≠ [] ∧
    containsSub "google.com".data
      ((pyNetloc (pySplitScheme u.data).2).map Char.toLower) = false ∧
    containsSub "googleusercontent.com".data
      ((pyNetloc (pySplitScheme u.data).2).map Char.toLower) = false := by
  have h := mem_uniqueValid_valid _ [] u hu
  simp only [is_valid_url, Bool.and_eq_true, Bool.or_eq_true, beq_iff_eq,
    Bool.not_eq_true'] at h
  obtain ⟨⟨⟨hscheme, hne⟩, hgoogle⟩, hstatic⟩ := h
  refine ⟨hscheme, ?_, hgoogle, hstatic⟩
  intro hc
  rw [hc] at hne
  simp at hne

/-- Witness for C8 on a one-link result page. -/
theorem extract_google_urls_only_valid_witness :
    "http://example.com" ∈ extract_google_urls [["http://example.com"], [], [], []] ∧
    ((((pySplitScheme "http://example.com".data).1 = "http".data ∨
        (pySplitScheme "http://example.com".data).1 = "https".data) ∧
      pyNetloc (pySplitScheme "http://example.com".data).2 ≠ [] ∧
      containsSub "google.com".data
        ((pyNetloc (pySplitScheme "http://example.com".data).2).map Char.toLower) = false ∧
      containsSub "googleusercontent.com".data
        ((pyNetloc (pySplitScheme "http://example.com".data).2).map Char.toLower) = false)) :=
  ⟨by decide, extract_google_urls_only_valid [["http://example.com"], [], [], []]
    "http://example.com" (by decide)⟩

/-! ## Lemmas about the QueryCombinator -/

theorem combinations_length {α : Type} :
    ∀ (r : Nat) (l : List α), (combinations r l).length = l.length.choose r := by
  intro r l
  induction l generalizing r with
  | nil => cases r <;> simp [combinations]
  | cons x xs ih =>
    cases r with
    | zero => simp [combinations]
    | succ r =>
      simp [combinations, ih, Nat.choose_succ_succ]

theorem mem_combinations {α : Type} :
    ∀ {r : Nat} {l y : List α}, y ∈ combinations r l → y.Sublist l ∧ y.length = r := by
  intro r l
  induction l generalizing r with
  | nil =>
    intro y h
    cases r with
    | zero =>
      simp only [combinations, List.mem_singleton] at h
      subst h
      exact ⟨List.Sublist.refl _, rfl⟩
    | succ r => simp [combinations] at h
  | cons x xs ih =>
    intro y h
    cases r with
    | zero =>
      simp only [combinations, List.mem_singleton] at h
      subst h
      exact ⟨List.nil_sublist _, rfl⟩
    | succ r =>
      simp only [combinations, List.mem_append, List.mem_map] at h
      rcases h with ⟨z, hz, rfl⟩ | h
      · obtain ⟨hs, hl⟩ := ih hz
        exact ⟨hs.cons₂ x, by simp [hl]⟩
      · obtain ⟨hs, hl⟩ := ih h
        exact ⟨hs.cons x, hl⟩

theorem pyJoin_length (sep : String) :
    ∀ (l : List String), l ≠ [] →
      (pyJoin sep l).length = (l.map String.length).sum + (l.length - 1) * sep.length := by
  intro l
  induction l with
  | nil => intro h; exact absurd rfl h
  | cons a t ih =>
    intro _
    cases t with
    | nil => simp [pyJoin]
    | cons b t2 =>
      have hrec := ih (by simp)
      simp only [pyJoin, String.length_append, hrec, List.map_cons, List.sum_cons,
        List.length_cons, Nat.add_sub_cancel, Nat.succ_sub_one]
      ring

theorem sum_length_sublist : ∀ {c kw : List String}, c.Sublist kw →
    (∀ x ∈ kw, x ≠ "") →
    (c.map String.length).sum + (kw.length - c.length) ≤ (kw.map String.length).sum := by
  intro c kw h
  induction h with
  | slnil => simp
  | @cons l₁ l₂ a h ih =>
    intro hne
    have hih := ih (fun x hx => hne x (List.mem_cons_of_mem _ hx))
    have ha : 0 < a.length := by
      have : a ≠ "" := hne a (List.mem_cons_self _ _)
      cases a with
      | mk d =>
        cases d with
        | nil => simp at this
        | cons c cs => simp [String.length]
    have hlen : l₁.length ≤ l₂.length := h.length_le
    simp only [List.map_cons, List.sum_cons, List.length_cons]
    omega
  | @cons₂ l₁ l₂ a h ih =>
    intro hne
    have hih := ih (fun x hx => hne x (List.mem_cons_of_mem _ hx))
    simp only [List.map_cons, List.sum_cons, List.length_cons]
    omega

theorem list_range_sum (g : Nat → Nat) (m : Nat) :
    ((List.range m).map g).sum = ∑ i ∈ Finset.range m, g i := by
  induction m with
  | zero => simp
  | succ m ih => simp [List.range_succ, Finset.sum_range_succ, ih]

theorem range'_one_eq_map (m : Nat) :
    List.range' 1 m = (List.range m).map (fun i => i + 1) := by
  induction m with
  | zero => simp
  | succ k ih =>
    rw [List.range'_1_concat, ih, List.range_succ]
    simp [Nat.add_comm]

theorem sum_choose_interior (m : Nat) :
    ∑ i ∈ Finset.range m, (m + 1).choose (i + 1) = 2 ^ (m + 1) - 2 := by
  have hall : ∑ j ∈ Finset.range (m + 2), (m + 1).choose j = 2 ^ (m + 1) :=
    Nat.sum_range_choose (m + 1)
  rw [Finset.sum_range_succ' (fun j => (m + 1).choose j) (m + 1)] at hall
  rw [Finset.sum_range_succ (fun i => (m + 1).choose (i + 1)) m] at hall
  have hlast : (m + 1).choose (m + 1) = 1 := Nat.choose_self _
  have hzero : (m + 1).choose 0 = 1 := Nat.choose_zero_right _
  have hpow : 2 ≤ 2 ^ (m + 1) := by
    have : (2 : Nat) ^ 1 ≤ 2 ^ (m + 1) := Nat.pow_le_pow_right (by omega) (by omega)
    simpa using this
  omega

/-! ## C6: count and shape of the generated combinations -/

/-- C6: for a list of `n ≥ 2` distinct base keywords (base keywords are
non-empty strings, per the configuration's invariant),
`generate_keyword_combinations` emits exactly `2 ^ n - 2` combination
strings — one per non-empty proper subset, sizes `1` to `n - 1` — and
none of them equals the join of the full keyword list. -/
theorem generate_keyword_combinations_spec (qc : String) (kw : List String)
    (hlen : 2 ≤ kw.length) (_hnd : kw.Nodup) (hne : ∀ k ∈ kw, k ≠ "") :
    (generate_keyword_combinations qc kw).length = 2 ^ kw.length - 2 ∧
    ∀ s ∈ generate_keyword_combinations qc kw, s ≠ pyJoin qc kw := by
  constructor
  · obtain ⟨m, hm⟩ : ∃ m, kw.length = m + 1 := ⟨kw.length - 1, by omega⟩
    rw [generate_keyword_combinations, List.length_flatMap]
    have hmap : ∀ r : Nat, (List.length ∘ fun r => (combinations r kw).map (pyJoin qc)) r =
        kw.length.choose r := by
      intro r
      simp [combinations_length]
    rw [List.map_congr_left (fun r _ => hmap r)]
    rw [show List.range' 1 (kw.length - 1) = List.range' 1 m by rw [hm]; rfl]
    rw [range'_one_eq_map, List.map_map]
    have : ((List.range m).map ((fun r => kw.length.choose r) ∘ fun i => i + 1)).sum =
        ∑ i ∈ Finset.range m, kw.length.choose (i + 1) := list_range_sum _ m
    rw [this, hm]
    exact sum_choose_interior m
  · intro s hs
    rw [generate_keyword_combinations, List.mem_flatMap] at hs
    obtain ⟨r, hr, hmem⟩ := hs
    rw [List.mem_range'_1] at hr
    obtain ⟨c, hc, rfl⟩ := List.mem_map.mp hmem
    obtain ⟨hsub, hclen⟩ := mem_combinations hc
    have hcne : c ≠ [] := by
      intro h
      rw [h] at hclen
      simp at hclen
      omega
    have hkwne : kw ≠ [] := by
      intro h
      rw [h] at hlen
      simp at hlen
    have hsum := sum_length_sublist hsub hne
    have hlt : c.length < kw.length := by omega
    have hmul : (c.length - 1) * qc.length ≤ (kw.length - 1) * qc.length :=
      Nat.mul_le_mul_right _ (by omega)
    have hjc := pyJoin_length qc c hcne
    have hjkw := pyJoin_length qc kw hkwne
    intro heq
    have hlens : (pyJoin qc c).length = (pyJoin qc kw).length := by rw [heq]
    rw [hjc, hjkw] at hlens
    omega

/-- Witness for C6 on `["a", "b"]` with join character `"+"`. -/
theorem generate_keyword_combinations_spec_witness :
    (generate_keyword_combinations "+" ["a", "b"]).length = 2 ^ 2 - 2 ∧
    ∀ s ∈ generate_keyword_combinations "+" ["a", "b"], s ≠ pyJoin "+" ["a", "b"] :=
  generate_keyword_combinations_spec "+" ["a", "b"] (by decide) (by decide) (by decide)

end LiteBiws
